import Mathlib

/-!
Verification of the ID3 split-selection logic of the `DecisionTrees`
notebook: a categorical dataset with a positional label column (the last
schema column), class entropy, information gain, and the `find_node`
procedure that scans the feature columns and returns the one of maximal
gain (`np.argmax` semantics: first maximal index wins).

The notebook ships `Entropy` and `Gain` as `Complete me` scaffolding whose
bodies are a bare `return`; only `find_node` is implemented.  The entropy
and gain computations themselves are therefore modelled from the spec and
the scaffolding stubs are embedded separately as `Entropy` / `Gain`.
-/

namespace DecisionTrees

/-- A table of categorical records: a schema of named columns and rows of
values; the designated label column is the last column of the schema. -/
structure Dataset where
  cols : List String
  rows : List (List String)
deriving DecidableEq

/-- Value of record `r` in column `c`: the entry at the position of `c` in
the schema (`S[c]` for a single row). -/
def rowVal (S : Dataset) (c : String) (r : List String) : String :=
  r.getD (S.cols.indexOf c) ""

/-- Label of record `r`: the value in the last schema column. -/
def labelOf (S : Dataset) (r : List String) : String :=
  r.getD (S.cols.length - 1) ""

/-- The label column of the dataset, as a list of values. -/
def labelVals (S : Dataset) : List String :=
  S.rows.map (labelOf S)

/-- Column `c` of the dataset, as a list of values. -/
def colVals (S : Dataset) (c : String) : List String :=
  S.rows.map (rowVal S c)

/-- The rows of `S` whose value in column `c` equals `v`
(the subset `S[S[c] == v]` of the partition on `c`). -/
def subset (S : Dataset) (c v : String) : Dataset :=
  ⟨S.cols, S.rows.filter (fun r => rowVal S c r = v)⟩

/-- The name of the label column: the last column of the schema. -/
def labelCol (S : Dataset) : String := S.cols.getLastD ""

/-- Scan of `np.argmax`: `best` is the index of the running maximum `b`,
`i` is the index of the head of `xs` in the full list; a later element
replaces the running maximum only when strictly greater, so the first
maximal index wins. -/
def argmaxAux {α : Type*} [LinearOrder α] : List α → ℕ → ℕ → α → ℕ
  | [], _, best, _ => best
  | x :: xs, i, best, b =>
      if b < x then argmaxAux xs (i + 1) i x else argmaxAux xs (i + 1) best b

/-- Index of the first maximal element of a list (`np.argmax`); `none` on
the empty list, where numpy raises `ValueError`. -/
def np_argmax {α : Type*} [LinearOrder α] : List α → Option ℕ
  | [] => none
  | x :: xs => some (argmaxAux xs 1 0 x)

/-- Empirical frequency of the value `v` in the list `l`. -/
noncomputable def freq {α : Type*} [DecidableEq α] (l : List α) (v : α) : ℝ :=
  (l.count v : ℝ) / (l.length : ℝ)

/-- Modelled from the spec: the class entropy `S(D) = -Σ_v p_v · log2 p_v`
of a list of label values, the sum ranging over the distinct values
present, with `p_v = count(v)/|D|`.  The `Entropy` body in the source is
bare `Complete me` scaffolding, so the computation is taken from §4.1 of
the spec. -/
noncomputable def entropyOf {α : Type*} [DecidableEq α] (l : List α) : ℝ :=
  -((l.dedup.map (fun v => freq l v * Real.logb 2 (freq l v))).sum)

/-- Modelled from the spec: entropy of a dataset is the class entropy of
its label column. -/
noncomputable def entropy (S : Dataset) : ℝ :=
  entropyOf (labelVals S)

/-- Modelled from the spec: information gain
`Gain(D, c) = S(D) - Σ_i (|D_i|/|D|) · S(D_i)`, the `D_i` being the
subsets of the partition of `D` on the distinct values of column `c`.
The `Gain` body in the source is bare `Complete me` scaffolding, so the
computation is taken from §4.1 of the spec. -/
noncomputable def gain (S : Dataset) (c : String) : ℝ :=
  entropy S -
    (((colVals S c).dedup).map (fun v =>
      (((subset S c v).rows.length : ℝ) / (S.rows.length : ℝ)) *
        entropy (subset S c v))).sum

/-- The `Entropy` cell as shipped: the body under the docstring is a bare
`return`, i.e. the function returns `None` on every input. -/
def Entropy (_S : Dataset) : Option ℝ := none

/-- The `Gain` cell as shipped: the body under the docstring is a bare
`return`, i.e. the function returns `None` on every input. -/
def Gain (_S : Dataset) (_feature : String) : Option ℝ := none

/-- The `find_node` function from the source: collect the gains of the
columns `cols[:-1]` (the last column is the target and is skipped) and
return `cols[np.argmax(gains)]`. -/
noncomputable def find_node (S : Dataset) : Option String :=
  let cols := S.cols
  let gains := cols.dropLast.map (fun c => gain S c)
  (np_argmax gains).map (fun i => cols.getD i "")

/-- Error surface of the spec's §7: `EmptyDatasetError` and
`InvalidInputError`. -/
inductive SplitError where
  | emptyDatasetError
  | invalidInputError
deriving DecidableEq

/-- Modelled from the spec: `entropy` guarded per §7 — `EmptyDatasetError`
is raised when invoked on zero records.  No such guard exists in the
source, whose `Entropy` cell is scaffolding. -/
noncomputable def entropyChecked (S : Dataset) : Except SplitError ℝ :=
  if S.rows.length = 0 then .error .emptyDatasetError
  else .ok (entropy S)

/-- Modelled from the spec: `gain` guarded per §7 — `EmptyDatasetError` on
zero records, `InvalidInputError` when asked to split on the label column
itself or on a column not present in the schema.  No such guard exists in
the source, whose `Gain` cell is scaffolding. -/
noncomputable def gainChecked (S : Dataset) (c : String) : Except SplitError ℝ :=
  if S.rows.length = 0 then .error .emptyDatasetError
  else if c = labelCol S ∨ c ∉ S.cols then .error .invalidInputError
  else .ok (gain S c)

/-- Deduplication does not change the underlying finite set of values. -/
lemma dedup_toFinset {α : Type*} [DecidableEq α] (l : List α) :
    l.dedup.toFinset = l.toFinset := by
  ext a
  simp

/-- Frequencies are nonnegative. -/
lemma freq_nonneg {α : Type*} [DecidableEq α] (l : List α) (v : α) :
    0 ≤ freq l v :=
  div_nonneg (Nat.cast_nonneg _) (Nat.cast_nonneg _)

/-- A value absent from the list has frequency zero. -/
lemma freq_eq_zero {α : Type*} [DecidableEq α] {l : List α} {v : α}
    (h : v ∉ l) : freq l v = 0 := by
  rw [freq, List.count_eq_zero.mpr h]
  simp

/-- A value present in the list has positive frequency. -/
lemma freq_pos {α : Type*} [DecidableEq α] {l : List α} {v : α}
    (h : v ∈ l) : 0 < freq l v := by
  have hlen : 0 < l.length := List.length_pos.mpr (List.ne_nil_of_mem h)
  exact div_pos (by exact_mod_cast List.count_pos_iff.mpr h) (by exact_mod_cast hlen)

/-- Frequencies never exceed one. -/
lemma freq_le_one {α : Type*} [DecidableEq α] (l : List α) (v : α) :
    freq l v ≤ 1 := by
  rcases eq_or_ne l [] with rfl | hne
  · simp [freq]
  · have hlen : 0 < (l.length : ℝ) := by
      exact_mod_cast List.length_pos.mpr hne
    rw [freq, div_le_one hlen]
    exact_mod_cast List.count_le_length v l

/-- The entropy of a list is the entropy sum over any finite set of values
containing the values present: absent values have frequency zero and
contribute a zero term. -/
lemma entropyOf_eq_sum {α : Type*} [DecidableEq α] (l : List α) (V : Finset α)
    (hV : l.toFinset ⊆ V) :
    entropyOf l = ∑ v ∈ V, -(freq l v * Real.logb 2 (freq l v)) := by
  have h1 : ∑ v ∈ l.toFinset, freq l v * Real.logb 2 (freq l v)
      = (l.dedup.map (fun v => freq l v * Real.logb 2 (freq l v))).sum := by
    rw [← dedup_toFinset l]
    exact List.sum_toFinset _ (List.nodup_dedup l)
  have h2 : ∑ v ∈ V, freq l v * Real.logb 2 (freq l v)
      = ∑ v ∈ l.toFinset, freq l v * Real.logb 2 (freq l v) := by
    refine (Finset.sum_subset hV fun v _ hv => ?_).symm
    rw [freq_eq_zero (by simpa using hv)]
    simp
  rw [Finset.sum_neg_distrib, h2, h1, entropyOf]

/-- The frequencies of a nonempty list sum to one over any finite set of
values containing the values present. -/
lemma sum_freq {α : Type*} [DecidableEq α] (l : List α) (V : Finset α)
    (hV : l.toFinset ⊆ V) (hne : l ≠ []) :
    ∑ v ∈ V, freq l v = 1 := by
  have h0 : ∑ v ∈ V, freq l v = ∑ v ∈ l.toFinset, freq l v :=
    (Finset.sum_subset hV fun v _ hv => freq_eq_zero (by simpa using hv)).symm
  have hlen : 0 < (l.length : ℝ) := by
    exact_mod_cast List.length_pos.mpr hne
  rw [h0]
  unfold freq
  rw [← Finset.sum_div, ← Nat.cast_sum, List.sum_toFinset_count_eq_length]
  field_simp

/-- Gibbs' inequality, base-2 logarithm form: against any subprobability
vector `p` that dominates the support of the probability vector `q`, the
cross term `Σ q·log2 p` is at most `Σ q·log2 q`. -/
lemma gibbs_logb {α : Type*} (V : Finset α) (q p : α → ℝ)
    (hq0 : ∀ v ∈ V, 0 ≤ q v) (hp0 : ∀ v ∈ V, 0 ≤ p v)
    (habs : ∀ v ∈ V, 0 < q v → 0 < p v)
    (hq1 : ∑ v ∈ V, q v = 1) (hp1 : ∑ v ∈ V, p v ≤ 1) :
    ∑ v ∈ V, q v * Real.logb 2 (p v) ≤ ∑ v ∈ V, q v * Real.logb 2 (q v) := by
  have hlog2 : (0 : ℝ) < Real.log 2 := Real.log_pos (by norm_num)
  have key : ∀ v ∈ V, q v * Real.log (p v) - q v * Real.log (q v) ≤ p v - q v := by
    intro v hv
    rcases eq_or_lt_of_le (hq0 v hv) with h0 | hq
    · rw [← h0]
      simpa using hp0 v hv
    · have hp : 0 < p v := habs v hv hq
      calc q v * Real.log (p v) - q v * Real.log (q v)
          = q v * Real.log (p v / q v) := by
            rw [Real.log_div hp.ne' hq.ne']; ring
        _ ≤ q v * (p v / q v - 1) :=
            mul_le_mul_of_nonneg_left
              (Real.log_le_sub_one_of_pos (div_pos hp hq)) hq.le
        _ = p v - q v := by field_simp
  have hsum : ∑ v ∈ V, (q v * Real.log (p v) - q v * Real.log (q v))
      ≤ ∑ v ∈ V, (p v - q v) := Finset.sum_le_sum key
  rw [Finset.sum_sub_distrib, Finset.sum_sub_distrib, hq1] at hsum
  have hA : ∑ v ∈ V, q v * Real.log (p v) ≤ ∑ v ∈ V, q v * Real.log (q v) := by
    linarith
  have hrw : ∀ g : α → ℝ, ∑ v ∈ V, q v * Real.logb 2 (g v)
      = (∑ v ∈ V, q v * Real.log (g v)) / Real.log 2 := by
    intro g
    rw [Finset.sum_div]
    refine Finset.sum_congr rfl fun v _ => ?_
    rw [Real.logb, mul_div_assoc]
  rw [hrw (fun v => p v), hrw (fun v => q v)]
  exact div_le_div_of_nonneg_right hA hlog2.le

/-- Strict Gibbs' inequality: if `q` differs from `p` at a point where `p`
is positive and `p` is a probability vector, the cross term is strictly
smaller. -/
lemma gibbs_logb_lt {α : Type*} (V : Finset α) (q p : α → ℝ)
    (hq0 : ∀ v ∈ V, 0 ≤ q v) (hp0 : ∀ v ∈ V, 0 ≤ p v)
    (habs : ∀ v ∈ V, 0 < q v → 0 < p v)
    (hq1 : ∑ v ∈ V, q v = 1) (hp1 : ∑ v ∈ V, p v ≤ 1)
    (hex : ∃ v ∈ V, q v ≠ p v ∧ 0 < p v) :
    ∑ v ∈ V, q v * Real.logb 2 (p v) < ∑ v ∈ V, q v * Real.logb 2 (q v) := by
  have hlog2 : (0 : ℝ) < Real.log 2 := Real.log_pos (by norm_num)
  have key : ∀ v ∈ V, q v * Real.log (p v) - q v * Real.log (q v) ≤ p v - q v := by
    intro v hv
    rcases eq_or_lt_of_le (hq0 v hv) with h0 | hq
    · rw [← h0]
      simpa using hp0 v hv
    · have hp : 0 < p v := habs v hv hq
      calc q v * Real.log (p v) - q v * Real.log (q v)
          = q v * Real.log (p v / q v) := by
            rw [Real.log_div hp.ne' hq.ne']; ring
        _ ≤ q v * (p v / q v - 1) :=
            mul_le_mul_of_nonneg_left
              (Real.log_le_sub_one_of_pos (div_pos hp hq)) hq.le
        _ = p v - q v := by field_simp
  obtain ⟨v₀, hv₀, hneq, hp₀⟩ := hex
  have keylt : q v₀ * Real.log (p v₀) - q v₀ * Real.log (q v₀) < p v₀ - q v₀ := by
    rcases eq_or_lt_of_le (hq0 v₀ hv₀) with h0 | hq
    · rw [← h0]
      simpa using hp₀
    · have hdiv : p v₀ / q v₀ ≠ 1 := by
        intro h
        rw [div_eq_iff hq.ne', one_mul] at h
        exact hneq h.symm
      calc q v₀ * Real.log (p v₀) - q v₀ * Real.log (q v₀)
          = q v₀ * Real.log (p v₀ / q v₀) := by
            rw [Real.log_div hp₀.ne' hq.ne']; ring
        _ < q v₀ * (p v₀ / q v₀ - 1) :=
            (mul_lt_mul_left hq).mpr
              (Real.log_lt_sub_one_of_pos (div_pos hp₀ hq) hdiv)
        _ = p v₀ - q v₀ := by field_simp
  have hsum : ∑ v ∈ V, (q v * Real.log (p v) - q v * Real.log (q v))
      < ∑ v ∈ V, (p v - q v) :=
    Finset.sum_lt_sum key ⟨v₀, hv₀, keylt⟩
  rw [Finset.sum_sub_distrib, Finset.sum_sub_distrib, hq1] at hsum
  have hA : ∑ v ∈ V, q v * Real.log (p v) < ∑ v ∈ V, q v * Real.log (q v) := by
    linarith
  have hrw : ∀ g : α → ℝ, ∑ v ∈ V, q v * Real.logb 2 (g v)
      = (∑ v ∈ V, q v * Real.log (g v)) / Real.log 2 := by
    intro g
    rw [Finset.sum_div]
    refine Finset.sum_congr rfl fun v _ => ?_
    rw [Real.logb, mul_div_assoc]
  rw [hrw (fun v => p v), hrw (fun v => q v)]
  exact div_lt_div_of_pos_right hA hlog2

/-- Entropy of any list of labels is nonnegative. -/
lemma entropyOf_nonneg {α : Type*} [DecidableEq α] (l : List α) :
    0 ≤ entropyOf l := by
  rw [entropyOf_eq_sum l l.toFinset (le_refl _)]
  refine Finset.sum_nonneg fun v _ => ?_
  rw [neg_nonneg]
  exact mul_nonpos_iff.mpr
    (Or.inl ⟨freq_nonneg l v,
      Real.logb_nonpos (by norm_num) (freq_nonneg l v) (freq_le_one l v)⟩)

/-- Entropy written as the negated Finset sum over the distinct values. -/
lemma entropyOf_eq_neg_sum {α : Type*} [DecidableEq α] (l : List α) :
    entropyOf l = -∑ v ∈ l.toFinset, freq l v * Real.logb 2 (freq l v) := by
  rw [entropyOf_eq_sum l l.toFinset (le_refl _), Finset.sum_neg_distrib]

/-- Entropy is at most `log2 k`, `k` the number of distinct values, with
equality exactly on the uniform distribution. -/
lemma entropyOf_le_logb_card {α : Type*} [DecidableEq α] (l : List α)
    (hne : l ≠ []) :
    entropyOf l ≤ Real.logb 2 (l.toFinset.card : ℝ) ∧
      (entropyOf l = Real.logb 2 (l.toFinset.card : ℝ) ↔
        ∀ v ∈ l.toFinset, freq l v = 1 / (l.toFinset.card : ℝ)) := by
  set V := l.toFinset with hVdef
  have hVne : V.Nonempty := by
    obtain ⟨a, ha⟩ := List.exists_mem_of_ne_nil l hne
    exact ⟨a, by simp [hVdef, ha]⟩
  have hk : 0 < (V.card : ℝ) := by
    exact_mod_cast Finset.card_pos.mpr hVne
  have hu1 : ∑ _v ∈ V, (1 / (V.card : ℝ)) = 1 := by
    rw [Finset.sum_const, nsmul_eq_mul]
    field_simp
  have hq1 : ∑ v ∈ V, freq l v = 1 := sum_freq l V (le_refl _) hne
  have hlogu : Real.logb 2 (1 / (V.card : ℝ)) = -Real.logb 2 (V.card : ℝ) := by
    rw [one_div, Real.logb, Real.log_inv, neg_div, Real.logb]
  have hcross : ∑ v ∈ V, freq l v * Real.logb 2 (1 / (V.card : ℝ))
      = -Real.logb 2 (V.card : ℝ) := by
    rw [← Finset.sum_mul, hq1, one_mul, hlogu]
  have hH : entropyOf l = -∑ v ∈ V, freq l v * Real.logb 2 (freq l v) :=
    entropyOf_eq_neg_sum l
  constructor
  · have hg := gibbs_logb V (fun v => freq l v) (fun _ => 1 / (V.card : ℝ))
      (fun v _ => freq_nonneg l v) (fun _ _ => by positivity)
      (fun _ _ _ => by positivity) hq1 hu1.le
    rw [hcross] at hg
    rw [hH]
    linarith
  · constructor
    · intro hEq
      by_contra hnot
      push_neg at hnot
      obtain ⟨v₀, hv₀, hneq⟩ := hnot
      have hg := gibbs_logb_lt V (fun v => freq l v) (fun _ => 1 / (V.card : ℝ))
        (fun v _ => freq_nonneg l v) (fun _ _ => by positivity)
        (fun _ _ _ => by positivity) hq1 hu1.le
        ⟨v₀, hv₀, hneq, by positivity⟩
      rw [hcross] at hg
      rw [hH] at hEq
      linarith
    · intro huni
      rw [hH]
      have : ∑ v ∈ V, freq l v * Real.logb 2 (freq l v)
          = ∑ v ∈ V, (1 / (V.card : ℝ)) * Real.logb 2 (1 / (V.card : ℝ)) :=
        Finset.sum_congr rfl fun v hv => by rw [huni v hv]
      rw [this, Finset.sum_const, nsmul_eq_mul, hlogu]
      field_simp

/-- Entropy is zero exactly when all values in the list agree. -/
lemma entropyOf_eq_zero_iff {α : Type*} [DecidableEq α] (l : List α) :
    entropyOf l = 0 ↔ ∀ a ∈ l, ∀ b ∈ l, a = b := by
  have hterm : ∀ v ∈ l.toFinset,
      0 ≤ -(freq l v * Real.logb 2 (freq l v)) := fun v _ => by
    rw [neg_nonneg]
    exact mul_nonpos_iff.mpr
      (Or.inl ⟨freq_nonneg l v,
        Real.logb_nonpos (by norm_num) (freq_nonneg l v) (freq_le_one l v)⟩)
  rw [entropyOf_eq_sum l l.toFinset (le_refl _),
    Finset.sum_eq_zero_iff_of_nonneg hterm]
  have hfreq1 : ∀ a ∈ l, -(freq l a * Real.logb 2 (freq l a)) = 0 → freq l a = 1 := by
    intro a ha h1
    have h1' : freq l a * Real.logb 2 (freq l a) = 0 := by linarith
    rcases mul_eq_zero.mp h1' with h | h
    · exact absurd h (freq_pos ha).ne'
    · have hlog : Real.log (freq l a) = 0 := by
        rw [Real.logb] at h
        rcases div_eq_zero_iff.mp h with h3 | h3
        · exact h3
        · exact absurd h3 (Real.log_pos (by norm_num)).ne'
      rcases Real.log_eq_zero.mp hlog with h3 | h3 | h3
      · exact absurd h3 (freq_pos ha).ne'
      · exact h3
      · exact absurd h3 (by linarith [freq_pos ha])
  constructor
  · intro hall a ha b hb
    have hfa : freq l a = 1 := hfreq1 a ha (hall a (by simpa using ha))
    have hlen : (0 : ℝ) < l.length := by
      exact_mod_cast List.length_pos.mpr (List.ne_nil_of_mem ha)
    have hcount : (l.count a : ℝ) = l.length := by
      rw [freq, div_eq_one_iff_eq hlen.ne'] at hfa
      exact hfa
    have hcount' : l.count a = l.length := by exact_mod_cast hcount
    exact List.count_eq_length.mp hcount' b hb
  · intro hall v hv
    have hvl : v ∈ l := by simpa using hv
    have hcount : l.count v = l.length :=
      List.count_eq_length.mpr fun b hb => hall v hvl b hb
    have hlen : (0 : ℝ) < l.length := by
      exact_mod_cast List.length_pos.mpr (List.ne_nil_of_mem hvl)
    have hfv : freq l v = 1 := by
      rw [freq, hcount]
      field_simp
    rw [hfv]
    simp

/-- Entropy of a list as a negated sum over any superset of the values
present. -/
lemma entropyOf_eq_neg_sum_superset {α : Type*} [DecidableEq α] (l : List α)
    (V : Finset α) (hV : l.toFinset ⊆ V) :
    entropyOf l = -∑ v ∈ V, freq l v * Real.logb 2 (freq l v) := by
  rw [entropyOf_eq_sum l V hV, Finset.sum_neg_distrib]

/-- Counting over the fibers of a partition: filtering a list by each value
of `f` in turn and counting with `pr` in each fiber counts `pr` over the
whole list, for any finite index set covering the image of `f`. -/
lemma countP_fiber_partition {ρ β : Type*} [DecidableEq β]
    (pr : ρ → Bool) (f : ρ → β) :
    ∀ (rows : List ρ) (B : Finset β), (∀ r ∈ rows, f r ∈ B) →
      ∑ b ∈ B, (rows.filter (fun r => f r = b)).countP pr = rows.countP pr := by
  intro rows
  induction rows with
  | nil =>
      intro B _
      simp
  | cons r t ih =>
      intro B hB
      have hfr : f r ∈ B := hB r (List.mem_cons_self r t)
      have hstep : ∀ b ∈ B,
          ((r :: t).filter (fun x => f x = b)).countP pr
            = (t.filter (fun x => f x = b)).countP pr
              + (if f r = b then (if pr r then 1 else 0) else 0) := by
        intro b _
        by_cases h : f r = b
        · simp [List.filter_cons, h, List.countP_cons]
        · simp [List.filter_cons, h]
      rw [Finset.sum_congr rfl hstep, Finset.sum_add_distrib,
        ih B (fun x hx => hB x (List.mem_cons_of_mem r hx)),
        Finset.sum_ite_eq B (f r) (fun _ => if pr r then 1 else 0),
        if_pos hfr, List.countP_cons]

/-- The sizes of the fibers of a partition add up to the size of the
list. -/
lemma length_fiber_partition {ρ β : Type*} [DecidableEq β] (f : ρ → β)
    (rows : List ρ) (B : Finset β) (hB : ∀ r ∈ rows, f r ∈ B) :
    ∑ b ∈ B, (rows.filter (fun r => f r = b)).length = rows.length := by
  have h := countP_fiber_partition (fun _ => true) f rows B hB
  simpa using h

/-- Counts of a mapped value over the fibers of a partition add up to the
whole-list count. -/
lemma count_map_fiber_partition {ρ β γ : Type*} [DecidableEq β] [DecidableEq γ]
    (f : ρ → β) (g : ρ → γ) (v : γ) (rows : List ρ) (B : Finset β)
    (hB : ∀ r ∈ rows, f r ∈ B) :
    ∑ b ∈ B, ((rows.filter (fun r => f r = b)).map g).count v
      = (rows.map g).count v := by
  have h := countP_fiber_partition (fun r => g r == v) f rows B hB
  simpa [List.count_eq_countP, List.countP_map, Function.comp] using h

/-- The label column has one entry per record. -/
lemma labelVals_length (S : Dataset) : (labelVals S).length = S.rows.length :=
  List.length_map _ _

/-- A feature column has one entry per record. -/
lemma colVals_length (S : Dataset) (c : String) :
    (colVals S c).length = S.rows.length :=
  List.length_map _ _

/-- The rows of a partition subset, unfolded. -/
lemma subset_rows (S : Dataset) (c v : String) :
    (subset S c v).rows = S.rows.filter (fun r => rowVal S c r = v) := rfl

/-- Labels of a partition subset are the labels of its filtered rows. -/
lemma labelVals_subset (S : Dataset) (c v : String) :
    labelVals (subset S c v)
      = (S.rows.filter (fun r => rowVal S c r = v)).map (labelOf S) := rfl

/-- Every label of a partition subset is a label of the whole dataset. -/
lemma mem_labelVals_of_mem_subset {S : Dataset} {c v a : String}
    (h : a ∈ labelVals (subset S c v)) : a ∈ labelVals S := by
  rw [labelVals_subset] at h
  obtain ⟨r, hr, rfl⟩ := List.mem_map.mp h
  exact List.mem_map.mpr ⟨r, (List.mem_filter.mp hr).1, rfl⟩

/-- Support of the labels of a subset is contained in the support of the
labels of the whole dataset. -/
lemma labelVals_subset_toFinset {S : Dataset} {c v : String} :
    (labelVals (subset S c v)).toFinset ⊆ (labelVals S).toFinset := by
  intro a ha
  simp only [List.mem_toFinset] at ha ⊢
  exact mem_labelVals_of_mem_subset ha

/-- A partition subset at a value present in the column is nonempty. -/
lemma subset_rows_ne_nil {S : Dataset} {c w : String}
    (hw : w ∈ (colVals S c).toFinset) : (subset S c w).rows ≠ [] := by
  rw [List.mem_toFinset] at hw
  obtain ⟨r, hr, hval⟩ := List.mem_map.mp hw
  rw [subset_rows]
  exact List.ne_nil_of_mem (List.mem_filter.mpr ⟨hr, by simp [hval]⟩)

/-- The partition of the rows on the distinct values of a column is
exhaustive in size: the subset sizes add up to the number of records. -/
lemma sum_subset_length (S : Dataset) (c : String) :
    ∑ v ∈ (colVals S c).toFinset, (subset S c v).rows.length
      = S.rows.length := by
  have hB : ∀ r ∈ S.rows, rowVal S c r ∈ (colVals S c).toFinset := by
    intro r hr
    rw [List.mem_toFinset]
    exact List.mem_map.mpr ⟨r, hr, rfl⟩
  simpa [subset_rows] using
    length_fiber_partition (rowVal S c) S.rows ((colVals S c).toFinset) hB

/-- Label counts accumulate over the partition subsets. -/
lemma sum_subset_count (S : Dataset) (c v : String) :
    ∑ w ∈ (colVals S c).toFinset, (labelVals (subset S c w)).count v
      = (labelVals S).count v := by
  have hB : ∀ r ∈ S.rows, rowVal S c r ∈ (colVals S c).toFinset := by
    intro r hr
    rw [List.mem_toFinset]
    exact List.mem_map.mpr ⟨r, hr, rfl⟩
  simpa [labelVals_subset, labelVals] using
    count_map_fiber_partition (rowVal S c) (labelOf S) v S.rows
      ((colVals S c).toFinset) hB

/-- The label distribution of the whole dataset is the mixture of the
label distributions of the partition subsets, weighted by subset size. -/
lemma freq_labelVals_mix (S : Dataset) (c v : String) :
    freq (labelVals S) v
      = ∑ w ∈ (colVals S c).toFinset,
          (((subset S c w).rows.length : ℝ) / (S.rows.length : ℝ))
            * freq (labelVals (subset S c w)) v := by
  have hterm : ∀ w ∈ (colVals S c).toFinset,
      (((subset S c w).rows.length : ℝ) / (S.rows.length : ℝ))
          * freq (labelVals (subset S c w)) v
        = ((labelVals (subset S c w)).count v : ℝ) / (S.rows.length : ℝ) := by
    intro w hw
    have hnw : 0 < (subset S c w).rows.length :=
      List.length_pos.mpr (subset_rows_ne_nil hw)
    have hlw : (labelVals (subset S c w)).length = (subset S c w).rows.length :=
      List.length_map _ _
    have hnw' : ((subset S c w).rows.length : ℝ) ≠ 0 := by
      exact_mod_cast hnw.ne'
    rw [freq, hlw, div_mul_div_comm,
      mul_comm ((S.rows.length : ℝ)) (((subset S c w).rows.length : ℝ)),
      mul_div_mul_left _ _ hnw']
  rw [Finset.sum_congr rfl hterm, ← Finset.sum_div, ← Nat.cast_sum,
    sum_subset_count S c v, freq, labelVals_length]

/-- The gain written with a Finset sum over the distinct column values. -/
lemma gain_eq_finset (S : Dataset) (c : String) :
    gain S c = entropy S
      - ∑ v ∈ (colVals S c).toFinset,
          (((subset S c v).rows.length : ℝ) / (S.rows.length : ℝ))
            * entropy (subset S c v) := by
  rw [gain]
  congr 1

/-- Exchange of a mixture: if `p` is the `ω`-weighted mixture of the
`q w`, a sum of `p`-weighted terms is the `ω`-weighted sum of the
`q w`-weighted terms. -/
lemma sum_mix_mul {α β : Type*} (V : Finset α) (W : Finset β)
    (p : α → ℝ) (ω : β → ℝ) (q : β → α → ℝ) (L : α → ℝ)
    (hmix : ∀ v ∈ V, p v = ∑ w ∈ W, ω w * q w v) :
    ∑ v ∈ V, p v * L v = ∑ w ∈ W, ω w * ∑ v ∈ V, q w v * L v := by
  calc ∑ v ∈ V, p v * L v
      = ∑ v ∈ V, ∑ w ∈ W, ω w * q w v * L v := by
        refine Finset.sum_congr rfl fun v hv => ?_
        rw [hmix v hv, Finset.sum_mul]
    _ = ∑ w ∈ W, ∑ v ∈ V, ω w * q w v * L v := Finset.sum_comm
    _ = ∑ w ∈ W, ω w * ∑ v ∈ V, q w v * L v := by
        refine Finset.sum_congr rfl fun w _ => ?_
        rw [Finset.mul_sum]
        refine Finset.sum_congr rfl fun v _ => ?_
        ring

/-- Concavity of entropy over the partition: the size-weighted average of
the subset entropies is at most the entropy of the whole dataset. -/
lemma weighted_entropy_le (S : Dataset) (c : String) (hne : S.rows ≠ []) :
    ∑ w ∈ (colVals S c).toFinset,
        (((subset S c w).rows.length : ℝ) / (S.rows.length : ℝ))
          * entropy (subset S c w)
      ≤ entropy S := by
  have hlne : labelVals S ≠ [] := by
    simp [labelVals, hne]
  have hsub_ne : ∀ w ∈ (colVals S c).toFinset,
      labelVals (subset S c w) ≠ [] := by
    intro w hw
    simp [labelVals, subset_rows_ne_nil hw]
  have hentS : entropy S
      = -∑ v ∈ (labelVals S).toFinset,
          freq (labelVals S) v * Real.logb 2 (freq (labelVals S) v) :=
    entropyOf_eq_neg_sum_superset _ _ (le_refl _)
  have hentw : ∀ w ∈ (colVals S c).toFinset,
      entropy (subset S c w)
        = -∑ v ∈ (labelVals S).toFinset,
            freq (labelVals (subset S c w)) v
              * Real.logb 2 (freq (labelVals (subset S c w)) v) :=
    fun w _ => entropyOf_eq_neg_sum_superset _ _ labelVals_subset_toFinset
  have hgibbs : ∀ w ∈ (colVals S c).toFinset,
      ∑ v ∈ (labelVals S).toFinset,
          freq (labelVals (subset S c w)) v
            * Real.logb 2 (freq (labelVals S) v)
        ≤ ∑ v ∈ (labelVals S).toFinset,
            freq (labelVals (subset S c w)) v
              * Real.logb 2 (freq (labelVals (subset S c w)) v) := by
    intro w hw
    refine gibbs_logb _ _ _ (fun v _ => freq_nonneg _ v) (fun v _ => freq_nonneg _ v)
      ?_ (sum_freq _ _ labelVals_subset_toFinset (hsub_ne w hw))
      (sum_freq _ _ (le_refl _) hlne).le
    intro v _ hq
    have hvmem : v ∈ labelVals (subset S c w) := by
      by_contra hmem
      rw [freq_eq_zero hmem] at hq
      exact lt_irrefl 0 hq
    exact freq_pos (mem_labelVals_of_mem_subset hvmem)
  have hmixed : ∑ v ∈ (labelVals S).toFinset,
      freq (labelVals S) v * Real.logb 2 (freq (labelVals S) v)
        = ∑ w ∈ (colVals S c).toFinset,
            (((subset S c w).rows.length : ℝ) / (S.rows.length : ℝ))
              * ∑ v ∈ (labelVals S).toFinset,
                  freq (labelVals (subset S c w)) v
                    * Real.logb 2 (freq (labelVals S) v) :=
    sum_mix_mul ((labelVals S).toFinset) ((colVals S c).toFinset)
      (fun v => freq (labelVals S) v)
      (fun w => (((subset S c w).rows.length : ℝ) / (S.rows.length : ℝ)))
      (fun w v => freq (labelVals (subset S c w)) v)
      (fun v => Real.logb 2 (freq (labelVals S) v))
      (fun v _ => freq_labelVals_mix S c v)
  have hstep : ∑ v ∈ (labelVals S).toFinset,
      freq (labelVals S) v * Real.logb 2 (freq (labelVals S) v)
        ≤ ∑ w ∈ (colVals S c).toFinset,
            (((subset S c w).rows.length : ℝ) / (S.rows.length : ℝ))
              * ∑ v ∈ (labelVals S).toFinset,
                  freq (labelVals (subset S c w)) v
                    * Real.logb 2 (freq (labelVals (subset S c w)) v) := by
    rw [hmixed]
    exact Finset.sum_le_sum fun w hw =>
      mul_le_mul_of_nonneg_left (hgibbs w hw)
        (div_nonneg (Nat.cast_nonneg _) (Nat.cast_nonneg _))
  have hLHS : ∑ w ∈ (colVals S c).toFinset,
      (((subset S c w).rows.length : ℝ) / (S.rows.length : ℝ))
        * entropy (subset S c w)
      = -∑ w ∈ (colVals S c).toFinset,
          (((subset S c w).rows.length : ℝ) / (S.rows.length : ℝ))
            * ∑ v ∈ (labelVals S).toFinset,
                freq (labelVals (subset S c w)) v
                  * Real.logb 2 (freq (labelVals (subset S c w)) v) := by
    rw [← Finset.sum_neg_distrib]
    refine Finset.sum_congr rfl fun w hw => ?_
    rw [hentw w hw]
    ring
  rw [hLHS, hentS]
  linarith [hstep]

/-- Information gain is nonnegative on a nonempty dataset. -/
lemma gain_nonneg (S : Dataset) (c : String) (hne : S.rows ≠ []) :
    0 ≤ gain S c := by
  rw [gain_eq_finset]
  have := weighted_entropy_le S c hne
  linarith

/-- A column that is constant across the dataset has gain exactly zero. -/
lemma gain_eq_zero_of_const (S : Dataset) (c : String)
    (hone : (colVals S c).dedup.length = 1) : gain S c = 0 := by
  obtain ⟨v, hv⟩ := List.length_eq_one.mp hone
  have hall : ∀ r ∈ S.rows, rowVal S c r = v := by
    intro r hr
    have hmem : rowVal S c r ∈ (colVals S c).dedup :=
      List.mem_dedup.mpr (List.mem_map.mpr ⟨r, hr, rfl⟩)
    rw [hv] at hmem
    simpa using hmem
  have hfilter : S.rows.filter (fun r => rowVal S c r = v) = S.rows :=
    List.filter_eq_self.mpr fun r hr => by simp [hall r hr]
  have hsub : subset S c v = S := by
    show (⟨S.cols, S.rows.filter (fun r => rowVal S c r = v)⟩ : Dataset) = S
    rw [hfilter]
  have hrows_ne : S.rows ≠ [] := by
    intro h
    simp [colVals, h] at hone
  have hn : (S.rows.length : ℝ) ≠ 0 := by
    exact_mod_cast (List.length_pos.mpr hrows_ne).ne'
  rw [gain, hv]
  simp only [List.map_cons, List.map_nil, List.sum_cons, List.sum_nil, add_zero]
  rw [hsub, div_self hn, one_mul, sub_self]

/-- Reading a list with a default at a valid index gives the element. -/
lemma getD_of_lt {α : Type*} (l : List α) (d : α) {n : ℕ} (h : n < l.length) :
    l.getD n d = l[n] := by
  simp [List.getD_eq_getElem?_getD, List.getElem?_eq_getElem h]

/-- Invariant of the `np.argmax` scan over the full list `F`: if the
accumulator indexes the first maximum of the prefix of length `i` of `F`
and `xs` is the rest of `F`, the result indexes the first maximum of all
of `F`. -/
lemma argmaxAux_invariant {α : Type*} [LinearOrder α] (d : α) (F : List α) :
    ∀ (xs : List α) (i best : ℕ) (b : α),
      F.drop i = xs → best < i → best < F.length → F.getD best d = b →
      (∀ j, j < i → F.getD j d ≤ b) → (∀ j, j < best → F.getD j d < b) →
      argmaxAux xs i best b < F.length ∧
        (∀ j, j < F.length → F.getD j d ≤ F.getD (argmaxAux xs i best b) d) ∧
        (∀ j, j < argmaxAux xs i best b →
          F.getD j d < F.getD (argmaxAux xs i best b) d) := by
  intro xs
  induction xs with
  | nil =>
      intro i best b hdrop hbi hbF hval hle hlt
      have hlen : F.length ≤ i := by
        by_contra hcon
        push_neg at hcon
        rw [List.drop_eq_getElem_cons hcon] at hdrop
        exact List.cons_ne_nil _ _ hdrop
      simp only [argmaxAux]
      refine ⟨hbF, fun j hj => ?_, fun j hj => ?_⟩
      · rw [hval]
        exact hle j (lt_of_lt_of_le hj hlen)
      · rw [hval]
        exact hlt j hj
  | cons x xs ih =>
      intro i best b hdrop hbi hbF hval hle hlt
      have hiF : i < F.length := by
        by_contra hcon
        push_neg at hcon
        rw [List.drop_eq_nil_of_le hcon] at hdrop
        exact List.cons_ne_nil x xs hdrop.symm
      have hsplit : F.drop i = F[i] :: F.drop (i + 1) :=
        List.drop_eq_getElem_cons hiF
      rw [hsplit] at hdrop
      injection hdrop with hx hxs
      simp only [argmaxAux]
      by_cases hcmp : b < x
      · rw [if_pos hcmp]
        refine ih (i + 1) i x hxs (Nat.lt_succ_self i) hiF ?_ ?_ ?_
        · rw [getD_of_lt F d hiF]
          exact hx
        · intro j hj
          rcases Nat.lt_succ_iff_lt_or_eq.mp hj with hj' | rfl
          · exact le_of_lt (lt_of_le_of_lt (hle j hj') hcmp)
          · rw [getD_of_lt F d hiF, hx]
        · intro j hj
          exact lt_of_le_of_lt (hle j hj) hcmp
      · rw [if_neg hcmp]
        push_neg at hcmp
        refine ih (i + 1) best b hxs (lt_trans hbi (Nat.lt_succ_self i))
          hbF hval ?_ hlt
        intro j hj
        rcases Nat.lt_succ_iff_lt_or_eq.mp hj with hj' | rfl
        · exact hle j hj'
        · rw [getD_of_lt F d hiF, hx]
          exact hcmp

/-- Specification of `np.argmax` on a nonempty list: the result indexes a
maximal element and is the first index attaining the maximum. -/
lemma np_argmax_spec {α : Type*} [LinearOrder α] (d : α) {l : List α}
    (h : l ≠ []) :
    ∃ i, np_argmax l = some i ∧ i < l.length ∧
      (∀ j, j < l.length → l.getD j d ≤ l.getD i d) ∧
      (∀ j, j < i → l.getD j d < l.getD i d) := by
  match l, h with
  | x :: xs, _ =>
    have hinv := argmaxAux_invariant d (x :: xs) xs 1 0 x rfl Nat.zero_lt_one
      (by simp) rfl
      (by
        intro j hj
        have hj0 : j = 0 := Nat.lt_one_iff.mp hj
        subst hj0
        exact le_refl _)
      (by
        intro j hj
        exact absurd hj (Nat.not_lt_zero j))
    exact ⟨argmaxAux xs 1 0 x, rfl, hinv.1, hinv.2.1, hinv.2.2⟩

/-- A scan over elements never exceeding the running maximum keeps the
accumulator (`np.argmax` of a constant list is index `0`). -/
lemma argmaxAux_const {α : Type*} [LinearOrder α] :
    ∀ (xs : List α) (i best : ℕ) (b : α),
      (∀ x ∈ xs, x ≤ b) → argmaxAux xs i best b = best := by
  intro xs
  induction xs with
  | nil =>
      intro i best b _
      rfl
  | cons x t ih =>
      intro i best b hall
      simp only [argmaxAux]
      rw [if_neg (not_lt.mpr (hall x (List.mem_cons_self x t)))]
      exact ih (i + 1) best b fun y hy => hall y (List.mem_cons_of_mem x hy)

/-- Entropy of a dataset with no records is zero (empty sum). -/
lemma entropy_rows_nil (S : Dataset) (h : S.rows = []) : entropy S = 0 := by
  simp [entropy, entropyOf, labelVals, h]

/-- Gain on a dataset with no records is zero (empty sums). -/
lemma gain_rows_nil (S : Dataset) (c : String) (h : S.rows = []) :
    gain S c = 0 := by
  simp [gain, colVals, h, entropy_rows_nil S h]

/-- The gains list evaluated at a valid index. -/
lemma gains_getD (S : Dataset) {j : ℕ} (hj : j < S.cols.dropLast.length) :
    (S.cols.dropLast.map (fun c => gain S c)).getD j 0
      = gain S (S.cols.getD j "") := by
  have hj' : j < (S.cols.dropLast.map (fun c => gain S c)).length := by
    rw [List.length_map]
    exact hj
  have hjc : j < S.cols.length := by
    rw [List.length_dropLast] at hj
    omega
  rw [getD_of_lt _ _ hj', List.getElem_map]
  congr 1
  rw [List.getElem_dropLast, getD_of_lt S.cols "" hjc]

/-- Behavior of `find_node` on a nonempty feature schema: it returns the
schema column at the first index of maximal gain among the feature
columns `cols[:-1]`. -/
lemma find_node_spec (S : Dataset) (hf : S.cols.dropLast ≠ []) :
    ∃ i, i < S.cols.dropLast.length ∧
      find_node S = some (S.cols.getD i "") ∧
      (∀ j, j < S.cols.dropLast.length →
        gain S (S.cols.getD j "") ≤ gain S (S.cols.getD i "")) ∧
      (∀ j, j < i → gain S (S.cols.getD j "") < gain S (S.cols.getD i "")) := by
  have hg : S.cols.dropLast.map (fun c => gain S c) ≠ [] := by
    intro hcon
    exact hf (List.map_eq_nil_iff.mp hcon)
  obtain ⟨i, hsome, hlen, hmax, hfirst⟩ := np_argmax_spec (0 : ℝ) hg
  rw [List.length_map] at hlen
  refine ⟨i, hlen, ?_, ?_, ?_⟩
  · show (np_argmax (S.cols.dropLast.map fun c => gain S c)).map
      (fun k => S.cols.getD k "") = some (S.cols.getD i "")
    rw [hsome]
    rfl
  · intro j hj
    have h := hmax j (by rw [List.length_map]; exact hj)
    rwa [gains_getD S hj, gains_getD S hlen] at h
  · intro j hj
    have h := hfirst j hj
    rwa [gains_getD S (lt_trans hj hlen), gains_getD S hlen] at h

/-- `find_node` on a schema with no feature columns: `np.argmax` is handed
an empty list and fails (numpy `ValueError`). -/
lemma find_node_no_features (S : Dataset) (hf : S.cols.dropLast = []) :
    find_node S = none := by
  show (np_argmax (S.cols.dropLast.map fun c => gain S c)).map
    (fun k => S.cols.getD k "") = none
  rw [hf]
  rfl

/-- `find_node` on a dataset with zero records but at least one feature
column succeeds and returns the first feature column: every gain is zero,
and `np.argmax` of a constant list is `0`. -/
lemma find_node_rows_nil (S : Dataset) (h : S.rows = [])
    (hf : S.cols.dropLast ≠ []) :
    find_node S = some (S.cols.getD 0 "") := by
  obtain ⟨c0, cs, hcons⟩ := List.exists_cons_of_ne_nil hf
  show (np_argmax (S.cols.dropLast.map fun c => gain S c)).map
    (fun k => S.cols.getD k "") = some (S.cols.getD 0 "")
  rw [hcons, List.map_cons]
  simp only [np_argmax]
  rw [argmaxAux_const _ 1 0 (gain S c0) ?_]
  · rfl
  · intro x hx
    obtain ⟨c, _, rfl⟩ := List.mem_map.mp hx
    rw [gain_rows_nil S c h, gain_rows_nil S c0 h]

/-- C2: for every non-empty dataset `D`, `entropy D` equals
`-Σ_v p_v · log2 p_v` over the distinct label values with
`p_v = count(v)/|D|`; every summand has `p_v > 0`; summing instead over
any superset of label values leaves the value unchanged (a
zero-probability term contributes `0`, not `NaN`); and a dataset with
exactly one distinct label has entropy exactly `0.0`. -/
theorem entropy_formula (S : Dataset) (_hne : S.rows ≠ []) :
    entropy S
        = -∑ v ∈ (labelVals S).toFinset,
            ((labelVals S).count v : ℝ) / (S.rows.length : ℝ)
              * Real.logb 2
                  (((labelVals S).count v : ℝ) / (S.rows.length : ℝ)) ∧
      (∀ v ∈ (labelVals S).toFinset,
        0 < ((labelVals S).count v : ℝ) / (S.rows.length : ℝ)) ∧
      (∀ V : Finset String, (labelVals S).toFinset ⊆ V →
        entropy S
          = -∑ v ∈ V,
              ((labelVals S).count v : ℝ) / (S.rows.length : ℝ)
                * Real.logb 2
                    (((labelVals S).count v : ℝ) / (S.rows.length : ℝ))) ∧
      ((labelVals S).dedup.length = 1 → entropy S = 0) := by
  have hform : ∀ V : Finset String, (labelVals S).toFinset ⊆ V →
      entropy S
        = -∑ v ∈ V,
            ((labelVals S).count v : ℝ) / (S.rows.length : ℝ)
              * Real.logb 2
                  (((labelVals S).count v : ℝ) / (S.rows.length : ℝ)) := by
    intro V hV
    rw [entropy, entropyOf_eq_neg_sum_superset _ _ hV]
    congr 1
    refine Finset.sum_congr rfl fun v _ => ?_
    rw [freq, labelVals_length]
  refine ⟨hform _ (le_refl _), ?_, hform, ?_⟩
  · intro v hv
    have h := freq_pos (List.mem_toFinset.mp hv)
    rwa [freq, labelVals_length] at h
  · intro h1
    refine (entropyOf_eq_zero_iff (labelVals S)).mpr ?_
    obtain ⟨v, hv⟩ := List.length_eq_one.mp h1
    intro a ha b hb
    have ha' : a ∈ (labelVals S).dedup := List.mem_dedup.mpr ha
    have hb' : b ∈ (labelVals S).dedup := List.mem_dedup.mpr hb
    rw [hv] at ha' hb'
    simp only [List.mem_singleton] at ha' hb'
    rw [ha', hb']

/-- C2 witness: the theorem applied to a concrete two-record dataset with
a single label value, whose entropy is exactly zero. -/
theorem entropy_formula_witness :
    entropy ⟨["L"], [["a"], ["a"]]⟩ = 0 :=
  (entropy_formula ⟨["L"], [["a"], ["a"]]⟩ (by decide)).2.2.2 (by decide)

/-- C3: for every non-empty dataset and valid feature column `c`, the gain
is `S(D) - Σ_i (|D_i|/|D|)·S(D_i)` over the partition on the distinct
values of `c`, the partition is exhaustive in size (`Σ|D_i| = |D|`), and
every record falls in exactly one subset. -/
theorem gain_formula (S : Dataset) (c : String) (_hne : S.rows ≠ [])
    (_hc : c ∈ S.cols) (_hcl : c ≠ labelCol S) :
    gain S c = entropy S
        - ∑ v ∈ (colVals S c).toFinset,
            (((subset S c v).rows.length : ℝ) / (S.rows.length : ℝ))
              * entropy (subset S c v) ∧
      (∑ v ∈ (colVals S c).toFinset, (subset S c v).rows.length
        = S.rows.length) ∧
      (∀ r ∈ S.rows,
        ∃! v, v ∈ (colVals S c).toFinset ∧ r ∈ (subset S c v).rows) := by
  refine ⟨gain_eq_finset S c, sum_subset_length S c, ?_⟩
  intro r hr
  refine ⟨rowVal S c r, ⟨?_, ?_⟩, ?_⟩
  · rw [List.mem_toFinset]
    exact List.mem_map.mpr ⟨r, hr, rfl⟩
  · rw [subset_rows]
    exact List.mem_filter.mpr ⟨hr, by simp⟩
  · rintro v ⟨_, hrv⟩
    rw [subset_rows] at hrv
    have h := (List.mem_filter.mp hrv).2
    simp only [decide_eq_true_eq] at h
    exact h.symm

/-- C3 witness: the theorem applied to a concrete two-record dataset; the
subset sizes of the partition on `A` add up to the record count `2`. -/
theorem gain_formula_witness :
    ∑ v ∈ (colVals ⟨["A", "L"], [["x", "0"], ["y", "1"]]⟩ "A").toFinset,
        (subset ⟨["A", "L"], [["x", "0"], ["y", "1"]]⟩ "A" v).rows.length
      = 2 :=
  ((gain_formula ⟨["A", "L"], [["x", "0"], ["y", "1"]]⟩ "A" (by decide)
    (by decide) (by decide)).2.1).trans rfl

/-- C4: for every non-empty dataset and valid feature column `c`, the
gain is nonnegative (exactly, in real arithmetic), and a feature constant
across the dataset (a single distinct value) has gain exactly `0.0`. -/
theorem gain_nonneg_claim (S : Dataset) (c : String) (hne : S.rows ≠ [])
    (_hc : c ∈ S.cols) (_hcl : c ≠ labelCol S) :
    0 ≤ gain S c ∧ ((colVals S c).dedup.length = 1 → gain S c = 0) :=
  ⟨gain_nonneg S c hne, gain_eq_zero_of_const S c⟩

/-- C4 witness: the theorem applied to a concrete two-record dataset. -/
theorem gain_nonneg_claim_witness :
    0 ≤ gain ⟨["A", "L"], [["x", "0"], ["y", "0"]]⟩ "A" :=
  (gain_nonneg_claim ⟨["A", "L"], [["x", "0"], ["y", "0"]]⟩ "A" (by decide)
    (by decide) (by decide)).1

/-- C5: for every non-empty dataset whose label column has `k` distinct
values, `0 ≤ entropy ≤ log2 k`; entropy equals `log2 k` exactly when the
label distribution is uniform (`count(v)·k = |D|` for every distinct
label `v`), and equals `0` exactly when all labels agree. -/
theorem entropy_bounds (S : Dataset) (hne : S.rows ≠ []) :
    0 ≤ entropy S ∧
      entropy S ≤ Real.logb 2 ((labelVals S).dedup.length : ℝ) ∧
      (entropy S = Real.logb 2 ((labelVals S).dedup.length : ℝ) ↔
        ∀ v ∈ (labelVals S).toFinset,
          (labelVals S).count v * (labelVals S).dedup.length
            = (labelVals S).length) ∧
      (entropy S = 0 ↔ ∀ a ∈ labelVals S, ∀ b ∈ labelVals S, a = b) := by
  have hlne : labelVals S ≠ [] := by
    simp [labelVals, hne]
  have hbounds := entropyOf_le_logb_card (labelVals S) hlne
  rw [List.card_toFinset] at hbounds
  have hklen : (labelVals S).dedup ≠ [] := by
    intro hcon
    obtain ⟨a, ha⟩ := List.exists_mem_of_ne_nil _ hlne
    have : a ∈ (labelVals S).dedup := List.mem_dedup.mpr ha
    rw [hcon] at this
    exact List.not_mem_nil a this
  have hk : (0 : ℝ) < ((labelVals S).dedup.length : ℝ) := by
    exact_mod_cast List.length_pos.mpr hklen
  have hlen : (0 : ℝ) < ((labelVals S).length : ℝ) := by
    exact_mod_cast List.length_pos.mpr hlne
  have hcnt : ∀ v ∈ (labelVals S).toFinset,
      (freq (labelVals S) v = 1 / ((labelVals S).dedup.length : ℝ)
        ↔ (labelVals S).count v * (labelVals S).dedup.length
            = (labelVals S).length) := by
    intro v _
    rw [freq, div_eq_div_iff hlen.ne' hk.ne', one_mul]
    constructor
    · intro h
      exact_mod_cast h
    · intro h
      exact_mod_cast h
  have hiff2 : (∀ v ∈ (labelVals S).toFinset,
      freq (labelVals S) v = 1 / ((labelVals S).dedup.length : ℝ))
        ↔ (∀ v ∈ (labelVals S).toFinset,
            (labelVals S).count v * (labelVals S).dedup.length
              = (labelVals S).length) := by
    constructor <;> intro h v hv
    · exact (hcnt v hv).mp (h v hv)
    · exact (hcnt v hv).mpr (h v hv)
  exact ⟨entropyOf_nonneg _, hbounds.1, hbounds.2.trans hiff2,
    entropyOf_eq_zero_iff _⟩

/-- C5 witness: the theorem applied to a concrete two-record dataset with
two label values; entropy is nonnegative there. -/
theorem entropy_bounds_witness :
    0 ≤ entropy ⟨["L"], [["a"], ["b"]]⟩ :=
  (entropy_bounds ⟨["L"], [["a"], ["b"]]⟩ (by decide)).1

/-- C9: as shipped, the `Entropy` and `Gain` cells are `Complete me`
scaffolding with a bare `return`: both functions return `None` on every
input, so the entropy and gain computations the spec describes are not
implemented in the notebook. -/
theorem shipped_stubs_return_none (S : Dataset) (f : String) :
    Entropy S = none ∧ Gain S f = none :=
  ⟨rfl, rfl⟩

/-- C1: on a dataset with at least one record and at least one feature
column, `find_node` returns the schema column at the first index of
maximal gain among the feature columns `cols[:-1]`, evaluated in schema
order: the returned column's gain is maximal, and every strictly earlier
feature column has strictly smaller gain (first-occurrence-wins on
ties). -/
theorem find_node_selects_max_gain (S : Dataset) (_hr : S.rows ≠ [])
    (hf : S.cols.dropLast ≠ []) :
    ∃ i, i < S.cols.dropLast.length ∧
      find_node S = some (S.cols.getD i "") ∧
      (∀ j, j < S.cols.dropLast.length →
        gain S (S.cols.getD j "") ≤ gain S (S.cols.getD i "")) ∧
      (∀ j, j < i → gain S (S.cols.getD j "") < gain S (S.cols.getD i "")) :=
  find_node_spec S hf

/-- C1 witness: the theorem applied to a concrete one-feature dataset,
where the selected column is necessarily `"A"`. -/
theorem find_node_selects_max_gain_witness :
    find_node ⟨["A", "L"], [["x", "0"]]⟩ = some "A" := by
  obtain ⟨i, hi, hfn, -, -⟩ :=
    find_node_selects_max_gain ⟨["A", "L"], [["x", "0"]]⟩ (by decide) (by decide)
  simp only [List.length_dropLast, List.length_cons, List.length_nil] at hi
  have hi0 : i = 0 := by omega
  subst hi0
  exact hfn

/-- C10: `find_node` identifies the label column purely by position as the
last schema column: on any dataset with at least two columns it returns a
column at an index strictly before the last, never the last column. -/
theorem find_node_skips_label_column (S : Dataset) (h2 : 2 ≤ S.cols.length) :
    ∃ i, i < S.cols.length - 1 ∧ find_node S = some (S.cols.getD i "") := by
  have hf : S.cols.dropLast ≠ [] := by
    intro hcon
    have hlen := List.length_dropLast S.cols
    rw [hcon] at hlen
    simp only [List.length_nil] at hlen
    omega
  obtain ⟨i, hi, hfn, -, -⟩ := find_node_spec S hf
  rw [List.length_dropLast] at hi
  exact ⟨i, hi, hfn⟩

/-- C10 witness: applied to a concrete three-column dataset, the returned
column is one of the two feature columns and never the label column
`"L"`. -/
theorem find_node_skips_label_column_witness :
    find_node ⟨["B", "C", "L"], [["u", "v", "w"]]⟩ ≠ some "L" := by
  obtain ⟨i, hi, hfn⟩ :=
    find_node_skips_label_column ⟨["B", "C", "L"], [["u", "v", "w"]]⟩ (by decide)
  simp only [List.length_cons, List.length_nil] at hi
  rw [hfn]
  interval_cases i
  · simp
  · simp

/-- C7 counterexample: on the dataset with schema `["A", "L"]` and zero
records, `find_node` does not fail at all — it returns `"A"` — so it does
not raise an `EmptyDatasetError` on a dataset with zero records (no such
error type exists in the source). -/
theorem find_node_empty_counterexample :
    find_node ⟨["A", "L"], []⟩ = some "A" :=
  find_node_rows_nil ⟨["A", "L"], []⟩ rfl (by decide)

/-- C7 amended: `find_node` performs no input validation of its own: with
no feature columns it fails only because `np.argmax` is applied to an
empty sequence (numpy `ValueError`, modelled as `none`), and on a dataset
with zero records and at least one feature column it succeeds, returning
the first feature column (all gains are equal there). -/
theorem find_node_error_behavior (S : Dataset) :
    (S.cols.dropLast = [] → find_node S = none) ∧
      (S.rows = [] → S.cols.dropLast ≠ [] →
        find_node S = some (S.cols.getD 0 "")) :=
  ⟨find_node_no_features S, find_node_rows_nil S⟩

/-- C7 amended witness: the amended theorem applied to two concrete
datasets — a single-column schema (failure) and a zero-record dataset
with two feature columns (success on the first feature). -/
theorem find_node_error_behavior_witness :
    find_node ⟨["L"], [["0"]]⟩ = none ∧
      find_node ⟨["B", "C", "L"], []⟩ = some "B" :=
  ⟨(find_node_error_behavior ⟨["L"], [["0"]]⟩).1 rfl,
   (find_node_error_behavior ⟨["B", "C", "L"], []⟩).2 rfl (by decide)⟩

/-- C8: the spec-modelled guarded operations surface the spec's errors:
`entropy` and `gain` raise `EmptyDatasetError` on zero records, and `gain`
raises `InvalidInputError` on the label column or on a column absent from
the schema; on valid input `gain` succeeds. -/
theorem checked_error_behavior (S : Dataset) (c : String) :
    (S.rows = [] → entropyChecked S = .error .emptyDatasetError) ∧
      (S.rows = [] → gainChecked S c = .error .emptyDatasetError) ∧
      (S.rows ≠ [] → (c = labelCol S ∨ c ∉ S.cols) →
        gainChecked S c = .error .invalidInputError) ∧
      (S.rows ≠ [] → c ≠ labelCol S → c ∈ S.cols →
        gainChecked S c = .ok (gain S c)) := by
  refine ⟨?_, ?_, ?_, ?_⟩
  · intro h
    rw [entropyChecked, if_pos (by rw [h]; rfl)]
  · intro h
    rw [gainChecked, if_pos (by rw [h]; rfl)]
  · intro h hcol
    rw [gainChecked, if_neg (by rw [List.length_eq_zero]; exact h),
      if_pos hcol]
  · intro h h1 h2
    rw [gainChecked, if_neg (by rw [List.length_eq_zero]; exact h),
      if_neg (by push_neg; exact ⟨h1, h2⟩)]

/-- C8 witness: the theorem applied at concrete inputs, one per error
path and one for the success path. -/
theorem checked_error_behavior_witness :
    entropyChecked ⟨["L"], []⟩ = .error .emptyDatasetError ∧
      gainChecked ⟨["A", "L"], []⟩ "A" = .error .emptyDatasetError ∧
      gainChecked ⟨["A", "L"], [["x", "0"]]⟩ "L"
        = .error .invalidInputError ∧
      gainChecked ⟨["A", "L"], [["x", "0"]]⟩ "B"
        = .error .invalidInputError ∧
      gainChecked ⟨["A", "L"], [["x", "0"]]⟩ "A"
        = .ok (gain ⟨["A", "L"], [["x", "0"]]⟩ "A") :=
  ⟨(checked_error_behavior ⟨["L"], []⟩ "A").1 rfl,
   (checked_error_behavior ⟨["A", "L"], []⟩ "A").2.1 rfl,
   (checked_error_behavior ⟨["A", "L"], [["x", "0"]]⟩ "L").2.2.1
     (by decide) (Or.inl (by decide)),
   (checked_error_behavior ⟨["A", "L"], [["x", "0"]]⟩ "B").2.2.1
     (by decide) (Or.inr (by decide)),
   (checked_error_behavior ⟨["A", "L"], [["x", "0"]]⟩ "A").2.2.2
     (by decide) (by decide) (by decide)⟩

/-- The worked example of the spec's §8: one binary feature `A ∈ {x,y}`
and binary label `L ∈ {0,1}`. -/
def exampleD : Dataset :=
  ⟨["A", "L"], [["x", "0"], ["x", "1"], ["y", "1"], ["y", "1"]]⟩

/-- The natural log of 2 is nonzero. -/
lemma log_two_ne : Real.log 2 ≠ 0 :=
  (Real.log_pos (by norm_num)).ne'

/-- Base-2 logarithm of `1/4`. -/
lemma logb_quarter : Real.logb 2 (1/4 : ℝ) = -2 := by
  rw [Real.logb, show (1/4 : ℝ) = 1 / 2^2 by norm_num,
    Real.log_div one_ne_zero (by norm_num), Real.log_one, Real.log_pow,
    zero_sub, neg_div, mul_div_assoc, div_self log_two_ne, mul_one]
  norm_num

/-- Base-2 logarithm of `3/4`. -/
lemma logb_three_quarters :
    Real.logb 2 (3/4 : ℝ) = Real.logb 2 3 - 2 := by
  rw [Real.logb, Real.logb, show (3/4 : ℝ) = 3 / 2^2 by norm_num,
    Real.log_div (by norm_num) (by norm_num), Real.log_pow, sub_div,
    mul_div_assoc, div_self log_two_ne, mul_one]
  norm_num

/-- Base-2 logarithm of `1/2`. -/
lemma logb_half : Real.logb 2 (1/2 : ℝ) = -1 := by
  rw [Real.logb, Real.log_div one_ne_zero (by norm_num), Real.log_one,
    zero_sub, neg_div, div_self log_two_ne]

/-- Rational bounds on the base-2 logarithm of 3, from
`2^1584 < 3^1000 < 2^1585`. -/
lemma logb_three_bounds :
    (1584/1000 : ℝ) < Real.logb 2 3 ∧ Real.logb 2 3 < (1585/1000 : ℝ) := by
  have hlog2pos : (0 : ℝ) < Real.log 2 := Real.log_pos (by norm_num)
  have hpow1 : (2 : ℝ) ^ (1584 : ℕ) < (3 : ℝ) ^ (1000 : ℕ) := by norm_num
  have hpow2 : (3 : ℝ) ^ (1000 : ℕ) < (2 : ℝ) ^ (1585 : ℕ) := by norm_num
  constructor
  · rw [Real.logb, lt_div_iff₀ hlog2pos]
    have h := (Real.log_lt_log_iff (by positivity) (by positivity)).mpr hpow1
    rw [Real.log_pow, Real.log_pow] at h
    push_cast at h
    linarith
  · rw [Real.logb, div_lt_iff₀ hlog2pos]
    have h := (Real.log_lt_log_iff (by positivity) (by positivity)).mpr hpow2
    rw [Real.log_pow, Real.log_pow] at h
    push_cast at h
    linarith

/-- C6: the worked example — entropy of the 4-record dataset is
`2 - (3/4)·log2 3` (`≈ 0.8113`), the two subsets of the partition on `A`
have entropies `1.0` and `0.0`, and the gain on `A` is
`3/2 - (3/4)·log2 3 = 0.8113… - ((2/4)·1 + (2/4)·0)` (`≈ 0.3113`). -/
theorem worked_example :
    entropy exampleD = 2 - (3/4) * Real.logb 2 3 ∧
      entropy (subset exampleD "A" "x") = 1 ∧
      entropy (subset exampleD "A" "y") = 0 ∧
      gain exampleD "A" = 3/2 - (3/4) * Real.logb 2 3 ∧
      |entropy exampleD - 8113/10000| < 1/1000 ∧
      |gain exampleD "A" - 3113/10000| < 1/1000 := by
  have hlv : labelVals exampleD = ["0", "1", "1", "1"] := rfl
  have hded : (["0", "1", "1", "1"] : List String).dedup = ["0", "1"] := by
    decide
  have hc0 : (["0", "1", "1", "1"] : List String).count "0" = 1 := by decide
  have hc1 : (["0", "1", "1", "1"] : List String).count "1" = 3 := by decide
  have hf0 : freq (["0", "1", "1", "1"] : List String) "0" = 1/4 := by
    rw [freq, hc0]
    norm_num
  have hf1 : freq (["0", "1", "1", "1"] : List String) "1" = 3/4 := by
    rw [freq, hc1]
    norm_num
  have hent : entropy exampleD = 2 - (3/4) * Real.logb 2 3 := by
    rw [entropy, hlv, entropyOf, hded]
    simp only [List.map_cons, List.map_nil, List.sum_cons, List.sum_nil,
      hf0, hf1]
    rw [logb_quarter, logb_three_quarters]
    ring
  have hsubx : subset exampleD "A" "x"
      = ⟨["A", "L"], [["x", "0"], ["x", "1"]]⟩ := by decide
  have hsuby : subset exampleD "A" "y"
      = ⟨["A", "L"], [["y", "1"], ["y", "1"]]⟩ := by decide
  have hentx : entropy (⟨["A", "L"], [["x", "0"], ["x", "1"]]⟩ : Dataset)
      = 1 := by
    have hlvx : labelVals ⟨["A", "L"], [["x", "0"], ["x", "1"]]⟩
        = ["0", "1"] := rfl
    have hdedx : (["0", "1"] : List String).dedup = ["0", "1"] := by decide
    have hcx0 : (["0", "1"] : List String).count "0" = 1 := by decide
    have hcx1 : (["0", "1"] : List String).count "1" = 1 := by decide
    have hfx0 : freq (["0", "1"] : List String) "0" = 1/2 := by
      rw [freq, hcx0]
      norm_num
    have hfx1 : freq (["0", "1"] : List String) "1" = 1/2 := by
      rw [freq, hcx1]
      norm_num
    rw [entropy, hlvx, entropyOf, hdedx]
    simp only [List.map_cons, List.map_nil, List.sum_cons, List.sum_nil,
      hfx0, hfx1]
    rw [logb_half]
    ring
  have henty : entropy (⟨["A", "L"], [["y", "1"], ["y", "1"]]⟩ : Dataset)
      = 0 := by
    have hlvy : labelVals ⟨["A", "L"], [["y", "1"], ["y", "1"]]⟩
        = ["1", "1"] := rfl
    have hdedy : (["1", "1"] : List String).dedup = ["1"] := by decide
    have hcy1 : (["1", "1"] : List String).count "1" = 2 := by decide
    have hfy1 : freq (["1", "1"] : List String) "1" = 1 := by
      rw [freq, hcy1]
      norm_num
    rw [entropy, hlvy, entropyOf, hdedy]
    simp only [List.map_cons, List.map_nil, List.sum_cons, List.sum_nil,
      hfy1]
    simp [Real.logb_one]
  have hcv : (colVals exampleD "A").dedup = ["x", "y"] := by decide
  have hgain : gain exampleD "A" = 3/2 - (3/4) * Real.logb 2 3 := by
    rw [gain, hcv]
    simp only [List.map_cons, List.map_nil, List.sum_cons, List.sum_nil]
    rw [hsubx, hsuby, hentx, henty, hent]
    norm_num [exampleD]
    ring
  have hlb := logb_three_bounds.1
  have hub := logb_three_bounds.2
  refine ⟨hent, ?_, ?_, hgain, ?_, ?_⟩
  · rw [hsubx]
    exact hentx
  · rw [hsuby]
    exact henty
  · rw [hent, abs_lt]
    constructor <;> linarith
  · rw [hgain, abs_lt]
    constructor <;> linarith

end DecisionTrees
